import Mathlib

/-!
Verification of the Graft collaborative-editor core against its
natural-language specification.

Strings from the TypeScript source are modelled as `List Char` in the
anchoring module (where character indices matter) and as `String` in the
persistence/webhook modules (where only equality matters).  Asynchronous
calls to the GitHub content API are modelled by environment records whose
fields hold each call's outcome, and every operation returns, besides its
state, the list of external actions it performed (commits attempted,
fetches, notifications), so that frame and no-op properties are statements
about that trace.
-/

namespace Graft

/-! ## Text anchor resolver (src/shared/anchoring.ts) -/

/-- Predicate `matchesAt s t i`: holds when the pattern `t` occurs in `s` starting at
character index `i` (an "occurrence" of `t` in `s`). -/
def matchesAt (s t : List Char) (i : Nat) : Bool :=
  decide ((s.drop i).take t.length = t)

/-- JavaScript `String.prototype.indexOf(t, start)`: the least index
`i ≥ min start s.length` at which `t` occurs, `none` when there is none
(JS returns `-1` there). -/
def jsIndexOf (s t : List Char) (start : Nat) : Option Nat :=
  (List.range (s.length + 1)).find? (fun i => decide (min start s.length ≤ i) && matchesAt s t i)

/-- JavaScript `String.prototype.substring(a, b)`: clamps both arguments to
`[0, length]` and swaps them when out of order.  (Negative arguments cannot
arise in the embedded call sites; `Nat` subtraction already realises the
source's `Math.max(0, _)`.) -/
def jsSubstring (s : List Char) (a b : Nat) : List Char :=
  let a2 := min a s.length
  let b2 := min b s.length
  (s.drop (min a2 b2)).take (max a2 b2 - min a2 b2)

/-- Structure `TextAnchor` from src/types (part_007): the selected text plus up to 50
characters of context on each side.  The source field `prefix` is called
`pfx` here because `prefix` is unusable as a Lean field name. -/
structure TextAnchor where
  text : List Char
  pfx : List Char
  suffix : List Char
deriving DecidableEq

/-- Function `createAnchorFromText` (anchoring.ts lines 7-22): locate the first
occurrence of `anchorText`, capture ≤50 chars of context each side;
empty context when not found. -/
def createAnchorFromText (fullText anchorText : List Char) : TextAnchor :=
  match jsIndexOf fullText anchorText 0 with
  | some idx =>
      { text := anchorText
        pfx := jsSubstring fullText (idx - 50) idx
        suffix := jsSubstring fullText (idx + anchorText.length) (idx + anchorText.length + 50) }
  | none => { text := anchorText, pfx := [], suffix := [] }

/-- The candidate-collection loop of `resolveAnchorInText` (anchoring.ts
lines 32-39).  The JS `while (true)` loop is modelled with fuel; `none`
means the loop did not reach its `break` within the given fuel (for a
non-empty pattern, fuel `s.length + 2` always suffices, see
`collectCandidates_eq`; for the empty pattern the JS loop never breaks). -/
def collectCandidates (s t : List Char) : Nat → Nat → Option (List Nat)
  | 0, _ => none
  | fuel + 1, searchFrom =>
    match jsIndexOf s t searchFrom with
    | none => some []
    | some i => (collectCandidates s t fuel (i + 1)).map (fun rest => i :: rest)

/-- The inner scoring loop of `resolveAnchorInText` (anchoring.ts lines
52-64): compare `before` and `p` character by character inward from their
right ends (`j = 1, 2, ...`), counting matches, stopping at the first
mismatch or after `min |before| |p|` comparisons.  The bounded `for` loop
is given `min |before| |p| + 1` units of fuel, which always outlasts it. -/
def scoreLoop (before p : List Char) : Nat → Nat → Nat → Nat
  | 0, _, score => score
  | fuel + 1, j, score =>
    if j ≤ min before.length p.length then
      if before[before.length - j]? = p[p.length - j]? then
        scoreLoop before p fuel (j + 1) (score + 1)
      else score
    else score

/-- Score of one candidate occurrence at index `i` (anchoring.ts lines
48-64): the text preceding `i`, truncated to `|p|` characters, compared
suffix-against-suffix with `p`. -/
def scoreOf (fullText p : List Char) (i : Nat) : Nat :=
  let before := jsSubstring fullText (i - p.length) i
  scoreLoop before p (min before.length p.length + 1) 1 0

/-- The best-candidate selection loop of `resolveAnchorInText` (anchoring.ts
lines 45-70): running best score starts at `-1`, a candidate replaces the
best only when its score is strictly greater. -/
def pickBestLoop (fullText p : List Char) : List Nat → Int → Nat → Nat
  | [], _, bestIdx => bestIdx
  | i :: rest, bestScore, bestIdx =>
    let score := scoreOf fullText p i
    if bestScore < (score : Int) then pickBestLoop fullText p rest (score : Int) i
    else pickBestLoop fullText p rest bestScore bestIdx

/-- The `{from, to}` character range returned by `resolveAnchorInText`
(`from`/`to` are renamed: `from` is reserved in Lean). -/
structure ResolvedRange where
  fromIdx : Nat
  toIdx : Nat
deriving DecidableEq

/-- Function `resolveAnchorInText` (anchoring.ts lines 28-73).  The outer `Option`
models termination of the candidate loop (`none` = the JS loop never
breaks, which happens exactly for an empty `anchor.text`); the inner
`Option` is the source's `null` for "no occurrence". -/
def resolveAnchorInText (fullText : List Char) (anchor : TextAnchor) :
    Option (Option ResolvedRange) :=
  match collectCandidates fullText anchor.text (fullText.length + 2) 0 with
  | none => none
  | some [] => some none
  | some (c0 :: rest) =>
    let bestIdx :=
      if (c0 :: rest).length > 1 && !anchor.pfx.isEmpty then
        pickBestLoop fullText anchor.pfx (c0 :: rest) (-1) c0
      else c0
    some (some ⟨bestIdx, bestIdx + anchor.text.length⟩)

/-! Spec-side definitions for the anchoring claims (worded from the spec,
for comparison with the code-derived definitions above). -/

/-- All occurrence indices of `t` in `s`, in increasing order. -/
def occurrences (s t : List Char) : List Nat :=
  (List.range (s.length + 1)).filter (fun i => matchesAt s t i)

/-- Length of the longest common prefix of two character lists, scanned
character by character and stopped at the first mismatch. -/
def commonPrefixLen : List Char → List Char → Nat
  | a :: as, b :: bs => if a = b then commonPrefixLen as bs + 1 else 0
  | _, _ => 0

/-- Spec-side candidate score: "the length of the longest suffix of the
text preceding that occurrence that matches the tail of `anchor.prefix`,
scanned character-by-character from the boundary inward and stopped at the
first mismatch". -/
def specScore (fullText p : List Char) (i : Nat) : Nat :=
  commonPrefixLen (fullText.take i).reverse p.reverse

/-! ### Lemmas about occurrences and the candidate loop -/

lemma matchesAt_bound {s t : List Char} {i : Nat} (ht : t ≠ [])
    (h : matchesAt s t i = true) : i + t.length ≤ s.length := by
  have he : (s.drop i).take t.length = t := by
    simpa [matchesAt] using h
  have hlen : min t.length (s.length - i) = t.length := by
    have := congrArg List.length he
    simpa [List.length_take, List.length_drop] using this
  have htpos : 0 < t.length := List.length_pos.mpr ht
  omega

lemma find?_min_pairwise {l : List Nat} {p : Nat → Bool} {i : Nat}
    (hp : l.Pairwise (· < ·)) (h : l.find? p = some i) :
    ∀ j ∈ l, j < i → p j = false := by
  induction l with
  | nil => intro j hj; cases hj
  | cons a l ih =>
    rw [List.find?_cons] at h
    rcases List.pairwise_cons.mp hp with ⟨ha, hl⟩
    intro j hj hji
    by_cases hpa : p a = true
    · rw [hpa] at h
      simp only at h
      cases h
      rcases List.mem_cons.mp hj with rfl | hj2
      · omega
      · exact absurd (ha j hj2) (by omega)
    · rw [Bool.not_eq_true] at hpa
      rw [hpa] at h
      simp only at h
      rcases List.mem_cons.mp hj with rfl | hj2
      · exact hpa
      · exact ih hl h j hj2 hji

lemma jsIndexOf_some_le {s t : List Char} {start i : Nat}
    (h : jsIndexOf s t start = some i) : i ≤ s.length := by
  have := List.mem_of_find?_eq_some h
  have := List.mem_range.mp this
  omega

lemma jsIndexOf_some_start {s t : List Char} {start i : Nat}
    (h : jsIndexOf s t start = some i) : min start s.length ≤ i := by
  have := List.find?_some h
  simp only [Bool.and_eq_true, decide_eq_true_eq] at this
  exact this.1

lemma jsIndexOf_some_matches {s t : List Char} {start i : Nat}
    (h : jsIndexOf s t start = some i) : matchesAt s t i = true := by
  have := List.find?_some h
  simp only [Bool.and_eq_true, decide_eq_true_eq] at this
  exact this.2

lemma jsIndexOf_some_min {s t : List Char} {start i : Nat}
    (h : jsIndexOf s t start = some i) :
    ∀ j, j ≤ s.length → min start s.length ≤ j → matchesAt s t j = true → i ≤ j := by
  intro j hj hj2 hm
  by_contra hlt
  have hjmem : j ∈ List.range (s.length + 1) := List.mem_range.mpr (by omega)
  have := find?_min_pairwise (List.pairwise_lt_range _) h j hjmem (by omega)
  simp only [Bool.and_eq_true, decide_eq_true_eq] at this
  rw [hm] at this
  simp only [Bool.and_true] at this
  exact absurd hj2 (by simpa using this)

lemma jsIndexOf_none {s t : List Char} {start : Nat}
    (h : jsIndexOf s t start = none) :
    ∀ j, j ≤ s.length → min start s.length ≤ j → matchesAt s t j = false := by
  intro j hj hj2
  have := List.find?_eq_none.mp h j (List.mem_range.mpr (by omega))
  simp only [Bool.and_eq_true, decide_eq_true_eq, not_and] at this
  by_contra hm
  exact absurd (this hj2) (by simpa using hm)

lemma filter_range_split {m : Nat → Bool} {start i : Nat} :
    ∀ (n : Nat), i < n → start ≤ i → m i = true →
    (∀ j, j < n → start ≤ j → m j = true → i ≤ j) →
    (List.range n).filter (fun j => decide (start ≤ j) && m j)
      = i :: (List.range n).filter (fun j => decide (i + 1 ≤ j) && m j) := by
  intro n
  induction n with
  | zero => intro h; omega
  | succ n ih =>
    intro hin hsi hmi hmin
    rw [List.range_succ, List.filter_append, List.filter_append]
    by_cases hni : i < n
    · rw [ih hni hsi hmi (fun j hj => hmin j (by omega))]
      have h1 : (List.filter (fun j => decide (start ≤ j) && m j) [n])
          = List.filter (fun j => decide (i + 1 ≤ j) && m j) [n] := by
        simp only [List.filter_cons, List.filter_nil]
        have : decide (start ≤ n) = decide (i + 1 ≤ n) := by
          simp [decide_eq_decide]; omega
        rw [this]
      rw [h1, List.cons_append]
    · have hi_eq : i = n := by omega
      subst hi_eq
      have h2 : (List.range i).filter (fun j => decide (start ≤ j) && m j) = [] := by
        rw [List.filter_eq_nil_iff]
        intro j hj
        have hjlt := List.mem_range.mp hj
        simp only [Bool.and_eq_true, decide_eq_true_eq, not_and]
        intro hstj hmj
        exact absurd (hmin j (by omega) hstj hmj) (by omega)
      have h3 : (List.range i).filter (fun j => decide (i + 1 ≤ j) && m j) = [] := by
        rw [List.filter_eq_nil_iff]
        intro j hj
        have hjlt := List.mem_range.mp hj
        simp only [Bool.and_eq_true, decide_eq_true_eq, not_and]
        omega
      rw [h2, h3]
      simp [List.filter_cons, hsi, hmi]

lemma collectCandidates_eq (s t : List Char) (ht : t ≠ []) :
    ∀ (fuel start : Nat), start ≤ s.length → s.length + 1 ≤ start + fuel →
    collectCandidates s t fuel start =
      some ((List.range (s.length + 1)).filter (fun j => decide (start ≤ j) && matchesAt s t j)) := by
  intro fuel
  induction fuel with
  | zero => intro start h1 h2; omega
  | succ fuel ih =>
    intro start h1 h2
    rw [collectCandidates]
    cases hidx : jsIndexOf s t start with
    | none =>
      dsimp only
      have : (List.range (s.length + 1)).filter
          (fun j => decide (start ≤ j) && matchesAt s t j) = [] := by
        rw [List.filter_eq_nil_iff]
        intro j hj
        have hjlt := List.mem_range.mp hj
        have := jsIndexOf_none hidx j (by omega)
        simp only [Bool.and_eq_true, decide_eq_true_eq, not_and]
        intro hstj
        have := this (by omega)
        simp [this]
      rw [this]
    | some i =>
      dsimp only
      have hstart : start ≤ i := by
        have := jsIndexOf_some_start hidx
        omega
      have hm := jsIndexOf_some_matches hidx
      have hbound := matchesAt_bound ht hm
      have htpos : 0 < t.length := List.length_pos.mpr ht
      have hrec := ih (i + 1) (by omega) (by omega)
      rw [hrec]
      simp only [Option.map_some']
      rw [filter_range_split (s.length + 1) (by omega) hstart hm
        (fun j hj hstj hmj => jsIndexOf_some_min hidx j (by omega) (by omega) hmj)]

lemma collectCandidates_occ {s t : List Char} (ht : t ≠ []) :
    collectCandidates s t (s.length + 2) 0 = some (occurrences s t) := by
  rw [collectCandidates_eq s t ht (s.length + 2) 0 (by omega) (by omega)]
  unfold occurrences
  congr 1
  apply List.filter_congr
  intro x _
  simp

lemma mem_occurrences {s t : List Char} {i : Nat} :
    i ∈ occurrences s t ↔ i ≤ s.length ∧ matchesAt s t i = true := by
  unfold occurrences
  rw [List.mem_filter, List.mem_range]
  constructor
  · rintro ⟨h1, h2⟩; exact ⟨by omega, h2⟩
  · rintro ⟨h1, h2⟩; exact ⟨by omega, h2⟩

lemma occurrences_pairwise (s t : List Char) :
    (occurrences s t).Pairwise (· < ·) :=
  List.Pairwise.sublist (List.filter_sublist _) (List.pairwise_lt_range _)

/-! ### Lemmas about the candidate scoring -/

lemma commonPrefixLen_nil_left (y : List Char) : commonPrefixLen [] y = 0 := by
  cases y <;> rfl

lemma commonPrefixLen_nil_right (x : List Char) : commonPrefixLen x [] = 0 := by
  cases x <;> rfl

lemma commonPrefixLen_le_right : ∀ x y : List Char, commonPrefixLen x y ≤ y.length := by
  intro x
  induction x with
  | nil => intro y; rw [commonPrefixLen_nil_left]; omega
  | cons a as ih =>
    intro y
    cases y with
    | nil => rw [commonPrefixLen_nil_right]; omega
    | cons b bs =>
      rw [commonPrefixLen]
      by_cases hab : a = b
      · rw [if_pos hab]
        have := ih bs
        simp only [List.length_cons]
        omega
      · rw [if_neg hab]
        omega

lemma commonPrefixLen_self : ∀ x : List Char, commonPrefixLen x x = x.length := by
  intro x
  induction x with
  | nil => rfl
  | cons a as ih => rw [commonPrefixLen, if_pos rfl, ih]; rfl

lemma commonPrefixLen_take :
    ∀ (n : Nat) (x y : List Char), (y.length ≤ n ∨ x.length ≤ n) →
    commonPrefixLen (x.take n) y = commonPrefixLen x y := by
  intro n
  induction n with
  | zero =>
    intro x y h
    rcases h with h | h
    · have : y = [] := List.length_eq_zero.mp (by omega)
      subst this
      rw [commonPrefixLen_nil_right, commonPrefixLen_nil_right]
    · have : x = [] := List.length_eq_zero.mp (by omega)
      subst this
      rfl
  | succ n ih =>
    intro x y h
    cases x with
    | nil => rfl
    | cons a as =>
      cases y with
      | nil => rw [commonPrefixLen_nil_right, commonPrefixLen_nil_right]
      | cons b bs =>
        rw [List.take_cons (by omega : 0 < n + 1), commonPrefixLen, commonPrefixLen]
        simp only [Nat.add_sub_cancel]
        by_cases hab : a = b
        · rw [if_pos hab, if_pos hab, ih as bs (by
            simp only [List.length_cons] at h; omega)]
        · rw [if_neg hab, if_neg hab]

lemma scoreLoop_eq_cp (b p : List Char) :
    ∀ (fuel j acc : Nat), 1 ≤ j → min b.length p.length + 2 ≤ fuel + j →
    scoreLoop b p fuel j acc
      = acc + commonPrefixLen (b.reverse.drop (j - 1)) (p.reverse.drop (j - 1)) := by
  intro fuel
  induction fuel with
  | zero =>
    intro j acc h1 h2
    rw [scoreLoop]
    have hdrop : b.reverse.drop (j - 1) = [] ∨ p.reverse.drop (j - 1) = [] := by
      rcases Nat.le_total b.length p.length with hbp | hbp
      · left
        exact List.drop_eq_nil_of_le (by rw [List.length_reverse]; omega)
      · right
        exact List.drop_eq_nil_of_le (by rw [List.length_reverse]; omega)
    rcases hdrop with hd | hd
    · rw [hd, commonPrefixLen_nil_left]; omega
    · rw [hd, commonPrefixLen_nil_right]; omega
  | succ fuel ih =>
    intro j acc h1 h2
    rw [scoreLoop]
    by_cases hjm : j ≤ min b.length p.length
    · rw [if_pos hjm]
      have hjb : j ≤ b.length := by omega
      have hjp : j ≤ p.length := by omega
      have hb_lt : b.length - j < b.length := by omega
      have hp_lt : p.length - j < p.length := by omega
      have hbrev : b.reverse.drop (j - 1) = b[b.length - j] :: b.reverse.drop j := by
        have hlt : j - 1 < b.reverse.length := by rw [List.length_reverse]; omega
        rw [List.drop_eq_getElem_cons hlt]
        have : j - 1 + 1 = j := by omega
        rw [this]
        congr 1
        rw [List.getElem_reverse]
        congr 1
        omega
      have hprev : p.reverse.drop (j - 1) = p[p.length - j] :: p.reverse.drop j := by
        have hlt : j - 1 < p.reverse.length := by rw [List.length_reverse]; omega
        rw [List.drop_eq_getElem_cons hlt]
        have : j - 1 + 1 = j := by omega
        rw [this]
        congr 1
        rw [List.getElem_reverse]
        congr 1
        omega
      rw [hbrev, hprev, commonPrefixLen]
      have hbget : b[b.length - j]? = some b[b.length - j] := List.getElem?_eq_getElem hb_lt
      have hpget : p[p.length - j]? = some p[p.length - j] := List.getElem?_eq_getElem hp_lt
      by_cases hcheq : b[b.length - j] = p[p.length - j]
      · rw [if_pos (by rw [hbget, hpget, hcheq]), if_pos hcheq]
        rw [ih (j + 1) (acc + 1) (by omega) (by omega)]
        simp only [Nat.add_sub_cancel]
        omega
      · rw [if_neg (by rw [hbget, hpget]; simpa using hcheq), if_neg hcheq]
        omega
    · rw [if_neg hjm]
      have hdrop : b.reverse.drop (j - 1) = [] ∨ p.reverse.drop (j - 1) = [] := by
        rcases Nat.le_total b.length p.length with hbp | hbp
        · left
          exact List.drop_eq_nil_of_le (by rw [List.length_reverse]; omega)
        · right
          exact List.drop_eq_nil_of_le (by rw [List.length_reverse]; omega)
      rcases hdrop with hd | hd
      · rw [hd, commonPrefixLen_nil_left]; omega
      · rw [hd, commonPrefixLen_nil_right]; omega

lemma scoreOf_eq_cp (s p : List Char) (i : Nat) :
    scoreOf s p i = commonPrefixLen (jsSubstring s (i - p.length) i).reverse p.reverse := by
  unfold scoreOf
  rw [scoreLoop_eq_cp _ _ _ 1 0 (by omega) (by omega)]
  simp

lemma scoreOf_le (s p : List Char) (i : Nat) : scoreOf s p i ≤ p.length := by
  rw [scoreOf_eq_cp]
  have := commonPrefixLen_le_right (jsSubstring s (i - p.length) i).reverse p.reverse
  rw [List.length_reverse] at this
  exact this

lemma jsSubstring_of_le {s : List Char} {a b : Nat} (hab : a ≤ b) :
    jsSubstring s a b = (s.drop a).take (b - a) := by
  simp only [jsSubstring]
  have ha2b2 : min a s.length ≤ min b s.length := by omega
  rw [Nat.min_eq_left ha2b2, Nat.max_eq_right ha2b2]
  by_cases has : a ≤ s.length
  · rw [Nat.min_eq_left has]
    by_cases hbs : b ≤ s.length
    · rw [Nat.min_eq_left hbs]
    · rw [Nat.min_eq_right (by omega)]
      have h1 : (List.drop a s).length ≤ s.length - a := by rw [List.length_drop]
      have h2 : (List.drop a s).length ≤ b - a := by rw [List.length_drop]; omega
      rw [List.take_of_length_le h1, List.take_of_length_le h2]
  · rw [Nat.min_eq_right (by omega), Nat.min_eq_right (by omega)]
    rw [List.drop_eq_nil_of_le (by omega : s.length ≤ a)]
    simp

lemma length_jsSubstring_context {s : List Char} {i : Nat} (hi : i ≤ s.length) :
    (jsSubstring s (i - 50) i).length = min i 50 := by
  rw [jsSubstring_of_le (by omega)]
  rw [List.length_take, List.length_drop]
  omega

lemma before_reverse (s p : List Char) (i : Nat) (hi : i ≤ s.length) :
    (jsSubstring s (i - p.length) i).reverse
      = ((s.take i).reverse).take (min i p.length) := by
  rw [jsSubstring_of_le (by omega)]
  have h1 : i - (i - p.length) = min i p.length := by omega
  rw [h1, List.take_drop]
  have h2 : i - p.length + min i p.length = i := by omega
  rw [h2, List.reverse_drop]
  congr 1
  rw [List.length_take]
  omega

lemma scoreOf_eq_specScore (s p : List Char) (i : Nat) (hi : i ≤ s.length) :
    scoreOf s p i = specScore s p i := by
  rw [scoreOf_eq_cp, before_reverse s p i hi]
  unfold specScore
  apply commonPrefixLen_take
  rw [List.length_reverse, List.length_reverse, List.length_take]
  omega

lemma scoreOf_head_full (s : List Char) (i : Nat) (hi : i ≤ s.length) :
    scoreOf s (jsSubstring s (i - 50) i) i = (jsSubstring s (i - 50) i).length := by
  rw [scoreOf_eq_cp]
  have harg : i - (jsSubstring s (i - 50) i).length = i - 50 := by
    rw [length_jsSubstring_context hi]
    omega
  rw [harg, commonPrefixLen_self, List.length_reverse]

lemma pickBestLoop_spec (s p : List Char) :
    ∀ (l : List Nat) (bi r : Nat),
    (∀ c ∈ l, bi < c) → l.Pairwise (· < ·) →
    pickBestLoop s p l ((scoreOf s p bi : Nat) : Int) bi = r →
    (r = bi ∨ r ∈ l) ∧ scoreOf s p bi ≤ scoreOf s p r ∧
    (∀ c ∈ l, scoreOf s p c ≤ scoreOf s p r) ∧
    (scoreOf s p r = scoreOf s p bi → r = bi) ∧
    (∀ c ∈ l, scoreOf s p c = scoreOf s p r → r ≤ c) := by
  intro l
  induction l with
  | nil =>
    intro bi r _ _ hr
    rw [pickBestLoop] at hr
    subst hr
    refine ⟨Or.inl rfl, le_refl _, ?_, fun _ => rfl, ?_⟩
    · intro c hc; cases hc
    · intro c hc; cases hc
  | cons c l ih =>
    intro bi r hlt hpw hr
    rw [pickBestLoop] at hr
    rcases List.pairwise_cons.mp hpw with ⟨hcl, hpl⟩
    by_cases hsc : ((scoreOf s p bi : Nat) : Int) < (scoreOf s p c : Nat)
    · rw [if_pos hsc] at hr
      have hsc' : scoreOf s p bi < scoreOf s p c := by exact_mod_cast hsc
      rcases ih c r hcl hpl hr with ⟨h1, h2, h3, h4, h5⟩
      refine ⟨?_, by omega, ?_, ?_, ?_⟩
      · rcases h1 with rfl | h1
        · exact Or.inr (List.mem_cons_self _ _)
        · exact Or.inr (List.mem_cons_of_mem _ h1)
      · intro d hd
        rcases List.mem_cons.mp hd with rfl | hd2
        · omega
        · exact h3 d hd2
      · intro heq; omega
      · intro d hd hdeq
        rcases List.mem_cons.mp hd with rfl | hd2
        · have : r = d := h4 (by omega)
          omega
        · exact h5 d hd2 hdeq
    · rw [if_neg hsc] at hr
      have hsc' : scoreOf s p c ≤ scoreOf s p bi := by
        have : ¬ (scoreOf s p bi < scoreOf s p c) := by
          intro hcon
          exact hsc (by exact_mod_cast hcon)
        omega
      rcases ih bi r (fun d hd => hlt d (List.mem_cons_of_mem _ hd)) hpl hr with
        ⟨h1, h2, h3, h4, h5⟩
      refine ⟨?_, h2, ?_, h4, ?_⟩
      · rcases h1 with rfl | h1
        · exact Or.inl rfl
        · exact Or.inr (List.mem_cons_of_mem _ h1)
      · intro d hd
        rcases List.mem_cons.mp hd with rfl | hd2
        · omega
        · exact h3 d hd2
      · intro d hd hdeq
        rcases List.mem_cons.mp hd with rfl | hd2
        · have hrbi : r = bi := h4 (by omega)
          have := hlt d (List.mem_cons_self _ _)
          omega
        · exact h5 d hd2 hdeq

lemma pickBestLoop_entry (s p : List Char) (c0 : Nat) (rest : List Nat) :
    pickBestLoop s p (c0 :: rest) (-1) c0
      = pickBestLoop s p rest ((scoreOf s p c0 : Nat) : Int) c0 := by
  rw [pickBestLoop]
  rw [if_pos (by omega)]

lemma occurrences_eq_cons {D S : List Char} {i : Nat}
    (h : jsIndexOf D S 0 = some i) :
    occurrences D S
      = i :: (List.range (D.length + 1)).filter
          (fun j => decide (i + 1 ≤ j) && matchesAt D S j) := by
  have hi_le := jsIndexOf_some_le h
  have hm := jsIndexOf_some_matches h
  have hsplit := @filter_range_split (matchesAt D S) 0 i (D.length + 1)
    (by omega) (by omega) hm
    (fun j hj hstj hmj => jsIndexOf_some_min h j (by omega) (by omega) hmj)
  have hocc : occurrences D S
      = (List.range (D.length + 1)).filter (fun j => decide (0 ≤ j) && matchesAt D S j) := by
    unfold occurrences
    apply List.filter_congr
    intro x _
    simp
  rw [hocc, hsplit]

lemma resolveAnchorInText_cons {D : List Char} {a : TextAnchor} {c0 : Nat} {rest : List Nat}
    (h : collectCandidates D a.text (D.length + 2) 0 = some (c0 :: rest)) :
    resolveAnchorInText D a =
      some (some ⟨(if (c0 :: rest).length > 1 && !a.pfx.isEmpty then
                     pickBestLoop D a.pfx (c0 :: rest) (-1) c0
                   else c0),
                  (if (c0 :: rest).length > 1 && !a.pfx.isEmpty then
                     pickBestLoop D a.pfx (c0 :: rest) (-1) c0
                   else c0) + a.text.length⟩) := by
  simp only [resolveAnchorInText, h]

lemma resolveAnchorInText_nil {D : List Char} {a : TextAnchor}
    (h : collectCandidates D a.text (D.length + 2) 0 = some []) :
    resolveAnchorInText D a = some none := by
  simp only [resolveAnchorInText, h]

/-! ### C1: anchor round-trip -/

/-- C1 (amended to non-empty selections): for every document `D` and every
non-empty substring `S` occurring in `D` — with `i` the index of its first
occurrence, i.e. the occurrence `createAnchorFromText` located —
`resolveAnchorInText D (createAnchorFromText D S)` terminates and returns
exactly the half-open range `[i, i + |S|)`.  (For the empty substring the
source's candidate loop never terminates, see
`anchor_roundTrip_empty_cex`.) -/
theorem anchor_roundTrip (D S : List Char) (i : Nat) (hS : S ≠ [])
    (hfirst : jsIndexOf D S 0 = some i) :
    resolveAnchorInText D (createAnchorFromText D S)
      = some (some ⟨i, i + S.length⟩) := by
  have hi_le := jsIndexOf_some_le hfirst
  have hocc := occurrences_eq_cons hfirst
  have hanchor : createAnchorFromText D S
      = ⟨S, jsSubstring D (i - 50) i,
          jsSubstring D (i + S.length) (i + S.length + 50)⟩ := by
    rw [createAnchorFromText, hfirst]
  rw [hanchor]
  have hcand : collectCandidates D S (D.length + 2) 0
      = some (i :: (List.range (D.length + 1)).filter
          (fun j => decide (i + 1 ≤ j) && matchesAt D S j)) := by
    rw [collectCandidates_occ hS, hocc]
  rw [resolveAnchorInText_cons hcand]
  have hbest : (if (i :: (List.range (D.length + 1)).filter
          (fun j => decide (i + 1 ≤ j) && matchesAt D S j)).length > 1
          && !(jsSubstring D (i - 50) i).isEmpty then
        pickBestLoop D (jsSubstring D (i - 50) i)
          (i :: (List.range (D.length + 1)).filter
            (fun j => decide (i + 1 ≤ j) && matchesAt D S j)) (-1) i
      else i) = i := by
    by_cases hcond : ((i :: (List.range (D.length + 1)).filter
          (fun j => decide (i + 1 ≤ j) && matchesAt D S j)).length > 1
          && !(jsSubstring D (i - 50) i).isEmpty) = true
    · rw [if_pos hcond]
      rw [pickBestLoop_entry]
      have hrlt : ∀ c ∈ (List.range (D.length + 1)).filter
          (fun j => decide (i + 1 ≤ j) && matchesAt D S j), i < c := by
        intro c hc
        have := (List.mem_filter.mp hc).2
        simp only [Bool.and_eq_true, decide_eq_true_eq] at this
        omega
      have hrpw : ((List.range (D.length + 1)).filter
          (fun j => decide (i + 1 ≤ j) && matchesAt D S j)).Pairwise (· < ·) := by
        have hp := occurrences_pairwise D S
        rw [hocc] at hp
        exact (List.pairwise_cons.mp hp).2
      obtain ⟨h1, h2, h3, h4, h5⟩ :=
        pickBestLoop_spec D (jsSubstring D (i - 50) i) _ i _ hrlt hrpw rfl
      have hfull := scoreOf_head_full D i hi_le
      apply h4
      have hle := scoreOf_le D (jsSubstring D (i - 50) i)
        (pickBestLoop D (jsSubstring D (i - 50) i)
          ((List.range (D.length + 1)).filter
            (fun j => decide (i + 1 ≤ j) && matchesAt D S j))
          ((scoreOf D (jsSubstring D (i - 50) i) i : Nat) : Int) i)
      omega
    · rw [if_neg hcond]
  rw [hbest]

/-- C1 counterexample to the unrestricted claim: the empty string occurs in
`"a"` (first occurrence at index 0), but resolving the anchor built from it
returns no result at all — the model's `none` records that the candidate
loop of the source never reaches its `break` (it re-finds the final
position forever), rather than the claimed range `{0, 0}`. -/
theorem anchor_roundTrip_empty_cex :
    jsIndexOf ['a'] [] 0 = some 0 ∧
    resolveAnchorInText ['a'] (createAnchorFromText ['a'] []) = none := by
  decide

/-- C1 witness: a concrete round-trip through `anchor_roundTrip`. -/
theorem anchor_roundTrip_witness :
    ("world".toList : List Char) ≠ [] ∧
    jsIndexOf "hello world".toList "world".toList 0 = some 6 ∧
    resolveAnchorInText "hello world".toList
      (createAnchorFromText "hello world".toList "world".toList)
      = some (some ⟨6, 11⟩) :=
  ⟨by decide, by decide,
    anchor_roundTrip "hello world".toList "world".toList 6 (by decide) (by decide)⟩

/-- The JS candidate loop genuinely diverges on an empty pattern: no amount
of fuel makes it reach its `break` (shown here for the document `"a"`). -/
lemma collectCandidates_empty_pattern_diverges :
    ∀ (fuel start : Nat), collectCandidates ['a'] [] fuel start = none := by
  intro fuel
  induction fuel with
  | zero => intro start; rfl
  | succ fuel ih =>
    intro start
    rw [collectCandidates]
    have hidx : jsIndexOf ['a'] [] start = some (min start 1) := by
      unfold jsIndexOf
      rcases Nat.lt_or_ge start 1 with h | h
      · have h0 : start = 0 := by omega
        subst h0
        decide
      · have h1 : min start 1 = 1 := by omega
        have : (fun i => decide (min start 1 ≤ i) && matchesAt ['a'] [] i)
            = (fun i => decide (1 ≤ i) && matchesAt ['a'] [] i) := by
          funext i
          rw [h1]
        simp only [List.length_cons, List.length_nil]
        rw [this, h1]
        decide
    rw [hidx]
    dsimp only
    rw [ih]
    rfl

/-! ### C2: resolution case analysis -/

/-- C2 (amended to anchors with non-empty text): `resolveAnchorInText`
behaves by cases on the occurrences of `anchor.text` in `fullText`: none →
`null`; exactly one → its half-open range; several → the returned start
index is an occurrence whose spec-side score (longest common suffix of the
preceding text and the anchor prefix, scanned inward from the boundary and
stopped at the first mismatch) is maximal, the earliest such occurrence
winning ties; and on `"aaa foo bbb foo ccc"` with text `"foo"` and prefix
`"aaa foo bbb "` the result is `{from := 12, to := 15}`.  (For an anchor
with empty text the source's candidate loop never terminates, see
`resolveAnchor_cases_empty_cex`.) -/
theorem resolveAnchor_cases (D : List Char) (a : TextAnchor) (ht : a.text ≠ []) :
    (occurrences D a.text = [] → resolveAnchorInText D a = some none)
    ∧ (∀ c, occurrences D a.text = [c] →
        resolveAnchorInText D a = some (some ⟨c, c + a.text.length⟩))
    ∧ (1 < (occurrences D a.text).length →
        ∃ b, resolveAnchorInText D a = some (some ⟨b, b + a.text.length⟩)
          ∧ b ∈ occurrences D a.text
          ∧ (∀ c ∈ occurrences D a.text, specScore D a.pfx c ≤ specScore D a.pfx b)
          ∧ (∀ c ∈ occurrences D a.text,
              specScore D a.pfx c = specScore D a.pfx b → b ≤ c))
    ∧ resolveAnchorInText "aaa foo bbb foo ccc".toList
        ⟨"foo".toList, "aaa foo bbb ".toList, []⟩ = some (some ⟨12, 15⟩) := by
  refine ⟨?_, ?_, ?_, by decide⟩
  · intro h
    exact resolveAnchorInText_nil (by rw [collectCandidates_occ ht, h])
  · intro c h
    have hcand : collectCandidates D a.text (D.length + 2) 0 = some (c :: []) := by
      rw [collectCandidates_occ ht, h]
    rw [resolveAnchorInText_cons hcand]
    norm_num
  · intro hlen
    obtain ⟨c0, rest, hocc⟩ : ∃ c0 rest, occurrences D a.text = c0 :: rest := by
      cases hq : occurrences D a.text with
      | nil => rw [hq] at hlen; simp at hlen
      | cons x xs => exact ⟨x, xs, rfl⟩
    have hcand : collectCandidates D a.text (D.length + 2) 0 = some (c0 :: rest) := by
      rw [collectCandidates_occ ht, hocc]
    have hrestne : rest ≠ [] := by
      intro h
      rw [h] at hocc
      rw [hocc] at hlen
      simp at hlen
    have hpw := occurrences_pairwise D a.text
    rw [hocc] at hpw
    obtain ⟨hc0lt, hpwrest⟩ := List.pairwise_cons.mp hpw
    have hmemall : ∀ c ∈ occurrences D a.text, c ≤ D.length :=
      fun c hc => (mem_occurrences.mp hc).1
    rw [resolveAnchorInText_cons hcand]
    by_cases hcond : ((c0 :: rest).length > 1 && !a.pfx.isEmpty) = true
    · -- several candidates and a non-empty prefix: the selection loop runs
      have hbeq : (if (c0 :: rest).length > 1 && !a.pfx.isEmpty then
            pickBestLoop D a.pfx (c0 :: rest) (-1) c0
          else c0)
          = pickBestLoop D a.pfx rest ((scoreOf D a.pfx c0 : Nat) : Int) c0 := by
        rw [if_pos hcond, pickBestLoop_entry]
      obtain ⟨h1, h2, h3, h4, h5⟩ := pickBestLoop_spec D a.pfx rest c0 _ hc0lt hpwrest rfl
      refine ⟨pickBestLoop D a.pfx rest ((scoreOf D a.pfx c0 : Nat) : Int) c0,
        by rw [hbeq], ?_, ?_, ?_⟩
      · rw [hocc]
        rcases h1 with hr | hr
        · rw [hr]; exact List.mem_cons_self _ _
        · exact List.mem_cons_of_mem _ hr
      · intro c hc
        have hrmem : pickBestLoop D a.pfx rest ((scoreOf D a.pfx c0 : Nat) : Int) c0
            ∈ occurrences D a.text := by
          rw [hocc]
          rcases h1 with hr | hr
          · rw [hr]; exact List.mem_cons_self _ _
          · exact List.mem_cons_of_mem _ hr
        rw [← scoreOf_eq_specScore D a.pfx c (hmemall c hc),
            ← scoreOf_eq_specScore D a.pfx _ (hmemall _ hrmem)]
        rw [hocc] at hc
        rcases List.mem_cons.mp hc with rfl | hc2
        · exact h2
        · exact h3 c hc2
      · intro c hc hceq
        have hrmem : pickBestLoop D a.pfx rest ((scoreOf D a.pfx c0 : Nat) : Int) c0
            ∈ occurrences D a.text := by
          rw [hocc]
          rcases h1 with hr | hr
          · rw [hr]; exact List.mem_cons_self _ _
          · exact List.mem_cons_of_mem _ hr
        rw [← scoreOf_eq_specScore D a.pfx c (hmemall c hc),
            ← scoreOf_eq_specScore D a.pfx _ (hmemall _ hrmem)] at hceq
        rw [hocc] at hc
        rcases List.mem_cons.mp hc with rfl | hc2
        · rw [h4 (by omega)]
        · exact h5 c hc2 hceq
    · -- empty prefix (the only way the guard can fail here): first candidate wins
      have hpfxe : a.pfx = [] := by
        have hlen2 : ((c0 :: rest).length > 1 && !a.pfx.isEmpty) = !a.pfx.isEmpty := by
          cases rest with
          | nil => exact absurd rfl hrestne
          | cons x xs =>
            have hgt : (c0 :: x :: xs).length > 1 := by simp
            rw [decide_eq_true hgt, Bool.true_and]
        rw [hlen2] at hcond
        have hemp : a.pfx.isEmpty = true := by
          revert hcond
          cases a.pfx.isEmpty <;> simp
        exact List.isEmpty_iff.mp hemp
      have hzero : ∀ c, specScore D a.pfx c = 0 := by
        intro c
        rw [hpfxe]
        simp [specScore, commonPrefixLen_nil_right]
      refine ⟨c0, by rw [if_neg hcond], ?_, ?_, ?_⟩
      · rw [hocc]; exact List.mem_cons_self _ _
      · intro c hc
        rw [hzero, hzero]
      · intro c hc _
        rw [hocc] at hc
        rcases List.mem_cons.mp hc with rfl | hc2
        · exact le_refl _
        · exact le_of_lt (hc0lt c hc2)

/-- C2 counterexample to the unrestricted claim: on the empty document the
empty anchor text has exactly one occurrence (index 0), so the claim
demands the range `{0, 0}`; but the source's candidate loop never breaks
for an empty anchor text, recorded as `none` by the model. -/
theorem resolveAnchor_cases_empty_cex :
    occurrences [] [] = [0] ∧
    resolveAnchorInText [] ⟨[], [], []⟩ = none := by
  decide

/-- C2 witness: `resolveAnchor_cases` applied to a document with no
occurrence of the anchor text. -/
theorem resolveAnchor_cases_witness :
    resolveAnchorInText "aaa".toList ⟨"foo".toList, [], []⟩ = some none :=
  (resolveAnchor_cases "aaa".toList ⟨"foo".toList, [], []⟩ (by decide)).1 (by decide)

/-! ## GitHub persistence layer (server/src/persistence.ts, part_000)

The `GraftPersistence` methods are embedded as pure state transformers.
The shared Y.Doc is modelled by its claim-relevant projections: the `meta`
map, the `markdown` text, and the values of the `comments` map.  Each
`Octokit` call's outcome is a field of an environment record, and every
operation additionally returns the list of external actions it performed. -/

/-- Outcome of one `createOrUpdateFileContents` call: success carries the
optional `data.content?.sha`; `conflict409` is an HTTP 409; `fail` is any
other thrown error. -/
inductive PutRes where
  | okSha (sha : Option String)
  | conflict409
  | fail
deriving DecidableEq

/-- Outcome of one `repos.getContent` call on the document path. -/
inductive FetchRes where
  | file (content sha : String)
  | notFile
  | fail
deriving DecidableEq

/-- Outcome of `repos.getContent` on the comments path. -/
inductive GetRes where
  | file (sha : String)
  | notFile
  | notFound
  | fail
deriving DecidableEq

/-- Result of `node-diff3`'s `merge(ours, base, theirs)`. -/
structure MergeRes where
  conflict : Bool
  result : List String
deriving DecidableEq

/-- The structured side-channel messages sent by `RoomManager.notifyClients`. -/
inductive Notif where
  | merged
  | conflictMsg (theirs base : String)
deriving DecidableEq

/-- External actions performed by an operation, in order. -/
inductive Ev where
  | putDoc (r : PutRes)
  | fetchDoc (sha : String)
  | putComments
  | getCommentsFile
  | ensureBranch
  | notify (n : Notif)
deriving DecidableEq

/-- The `meta` map of the shared doc (`sha`, `savedContent`, `owner`,
`repo`, `branch`, `path`, `lastSaved`). -/
structure Meta where
  sha : String
  savedContent : String
  owner : String
  repo : String
  branch : String
  path : String
  lastSaved : Option Nat
deriving DecidableEq

/-- The claim-relevant projections of the shared `Y.Doc`. -/
structure Doc where
  meta : Meta
  markdown : String
  comments : List String
deriving DecidableEq

/-- Structure `SaveState` (persistence.ts lines 10-16); the debounce `timer` handle is
modelled by whether a timer is pending. -/
structure SaveState where
  fileSha : String
  commentsSha : Option String
  savedContent : String
  timer : Bool
  saving : Bool
deriving DecidableEq

/-- Environment for `handleConflict`: the fetch of the latest remote
content, the `node-diff3` merge function, and the outcome of the commit
attempted on a clean merge. -/
structure ConflictEnv where
  fetch : FetchRes
  mergeFn : String → String → String → MergeRes
  putMerged : PutRes

/-- Environment for `saveComments` (outcomes of its GitHub calls). -/
structure CommentsEnv where
  ensureBranchOk : Bool
  putWithSha : PutRes
  getExisting : GetRes
  putAfterGet : PutRes
  putCreate : PutRes

/-- Environment for `saveDocument`. -/
structure SaveEnv where
  putDoc : PutRes
  conflictEnv : ConflictEnv
  commentsEnv : CommentsEnv
  now : Nat

structure ConflictOut where
  state : SaveState
  doc : Doc
  trace : List Ev
  err : Option String
deriving DecidableEq

structure CommentsOut where
  state : SaveState
  trace : List Ev
deriving DecidableEq

structure SaveOut where
  state : Option SaveState
  doc : Doc
  trace : List Ev
  err : Option String
deriving DecidableEq

structure BodyOut where
  state : SaveState
  doc : Doc
  trace : List Ev
  err : Option String
deriving DecidableEq

/-- Method `handleConflict` (persistence.ts lines 269-337): fetch the latest
remote version (`theirs`); three-way merge against `base = savedContent`
and `ours = ` live markdown.  Clean merge: commit the merged text with the
freshly fetched sha, advance `fileSha`/`savedContent`/meta, and overwrite
the live markdown.  Conflicting merge: only `state.fileSha` is set to the
fetched sha ("Update the SHA so the next save attempt uses the latest");
everything else is untouched and no notification is sent.  A fetch error or
a non-file result throws (`err = some _`). -/
def handleConflict (state : SaveState) (doc : Doc) (env : ConflictEnv) : ConflictOut :=
  match env.fetch with
  | .fail => ⟨state, doc, [], some "getContent failed"⟩
  | .notFile => ⟨state, doc, [], some "Conflict resolution failed: not a file"⟩
  | .file theirs sha =>
    let base := state.savedContent
    let ours := doc.markdown
    let result := env.mergeFn ours base theirs
    if result.conflict = false then
      let merged := String.join result.result
      match env.putMerged with
      | .okSha shaOpt =>
        let newSha := shaOpt.getD state.fileSha
        ⟨{ state with fileSha := newSha, savedContent := merged },
         { doc with
            markdown := merged,
            meta := { doc.meta with sha := newSha, savedContent := merged } },
         [.fetchDoc sha, .putDoc (.okSha shaOpt)], none⟩
      | .conflict409 =>
        ⟨state, doc, [.fetchDoc sha, .putDoc .conflict409], some "merged save failed"⟩
      | .fail =>
        ⟨state, doc, [.fetchDoc sha, .putDoc .fail], some "merged save failed"⟩
    else
      ⟨{ state with fileSha := sha }, doc, [.fetchDoc sha], none⟩

/-- Method `saveComments` (persistence.ts lines 342-427): skip when the comments
map is empty and no comments file exists; otherwise ensure the comments
branch and commit the serialised comments, discovering the file sha first
when it is not cached.  All errors are caught and logged inside. -/
def saveComments (state : SaveState) (doc : Doc) (env : CommentsEnv) : CommentsOut :=
  if doc.comments.length = 0 ∧ state.commentsSha = none then
    ⟨state, []⟩
  else if env.ensureBranchOk = false then
    ⟨state, [.ensureBranch]⟩
  else
    match state.commentsSha with
    | some sha =>
      match env.putWithSha with
      | .okSha shaOpt =>
        ⟨{ state with commentsSha := some (shaOpt.getD sha) }, [.ensureBranch, .putComments]⟩
      | _ => ⟨state, [.ensureBranch, .putComments]⟩
    | none =>
      match env.getExisting with
      | .file _ =>
        match env.putAfterGet with
        | .okSha shaOpt =>
          ⟨{ state with commentsSha := shaOpt },
           [.ensureBranch, .getCommentsFile, .putComments]⟩
        | _ => ⟨state, [.ensureBranch, .getCommentsFile, .putComments]⟩
      | .notFile => ⟨state, [.ensureBranch, .getCommentsFile]⟩
      | .notFound =>
        match env.putCreate with
        | .okSha shaOpt =>
          ⟨{ state with commentsSha := shaOpt },
           [.ensureBranch, .getCommentsFile, .putComments]⟩
        | _ => ⟨state, [.ensureBranch, .getCommentsFile, .putComments]⟩
      | .fail => ⟨state, [.ensureBranch, .getCommentsFile]⟩

/-- The body of `saveDocument` (persistence.ts lines 205-260), i.e. the
`try` block entered after the guard has set `saving := true`. -/
def saveDocumentBody (state : SaveState) (doc : Doc) (env : SaveEnv) : BodyOut :=
  let meta := doc.meta
  if meta.owner = "" ∨ meta.repo = "" ∨ meta.branch = "" ∨ meta.path = "" then
    ⟨state, doc, [], none⟩
  else
    let currentContent := doc.markdown
    if currentContent = state.savedContent then
      ⟨state, doc, [], none⟩
    else
      match env.putDoc with
      | .okSha shaOpt =>
        let newSha := shaOpt.getD state.fileSha
        let state1 := { state with fileSha := newSha, savedContent := currentContent }
        let doc1 := { doc with
          meta := { meta with
            sha := newSha, savedContent := currentContent, lastSaved := some env.now } }
        let c := saveComments state1 doc1 env.commentsEnv
        ⟨c.state, doc1, .putDoc (.okSha shaOpt) :: c.trace, none⟩
      | .conflict409 =>
        let h := handleConflict state doc env.conflictEnv
        match h.err with
        | some e => ⟨h.state, h.doc, .putDoc .conflict409 :: h.trace, some e⟩
        | none =>
          let c := saveComments h.state h.doc env.commentsEnv
          ⟨c.state, h.doc, .putDoc .conflict409 :: (h.trace ++ c.trace), none⟩
      | .fail => ⟨state, doc, [.putDoc .fail], some "save failed"⟩

/-- Method `saveDocument` (persistence.ts lines 199-264): return immediately when
the state is missing or a save is already in flight; otherwise set the
in-flight flag, run the body, and (`finally`) clear the flag on every exit,
success or failure. -/
def saveDocument (state? : Option SaveState) (doc : Doc) (env : SaveEnv) : SaveOut :=
  match state? with
  | none => ⟨none, doc, [], none⟩
  | some state =>
    if state.saving then ⟨some state, doc, [], none⟩
    else
      let r := saveDocumentBody { state with saving := true } doc env
      ⟨some { r.state with saving := false }, r.doc, r.trace, r.err⟩

/-- Method `flushDocument` (persistence.ts lines 183-194): cancel the pending
debounce timer and save immediately. -/
def flushDocument (state? : Option SaveState) (doc : Doc) (env : SaveEnv) : SaveOut :=
  match state? with
  | none => ⟨none, doc, [], none⟩
  | some state => saveDocument (some { state with timer := false }) doc env

/-! ## Room manager (server/src/rooms.ts) -/

/-- Environment for `handleExternalChange`. -/
structure ExtEnv where
  fetch : FetchRes
  mergeFn : String → String → String → MergeRes

structure ExtOut where
  doc : Option Doc
  trace : List Ev
deriving DecidableEq

/-- Method `RoomManager.handleExternalChange` (rooms.ts lines 45-129): fetch the
latest remote version; when it equals the live content, only advance the
meta sha; otherwise three-way merge with `base = meta.savedContent`.
Clean merge: overwrite the live markdown, advance sha/savedContent, notify
`external-change-merged`.  Conflict: advance only the meta sha and notify
`external-change-conflict` with `theirs` and `base`.  All errors are caught
per room. -/
def handleExternalChange (doc? : Option Doc) (env : ExtEnv) : ExtOut :=
  match doc? with
  | none => ⟨none, []⟩
  | some doc =>
    let meta := doc.meta
    if meta.owner = "" ∨ meta.repo = "" ∨ meta.branch = "" ∨ meta.path = "" then
      ⟨some doc, []⟩
    else
      match env.fetch with
      | .fail => ⟨some doc, []⟩
      | .notFile => ⟨some doc, []⟩
      | .file theirs sha =>
        let base := meta.savedContent
        let ours := doc.markdown
        if theirs = ours then
          ⟨some { doc with meta := { meta with sha := sha } }, [.fetchDoc sha]⟩
        else
          let result := env.mergeFn ours base theirs
          if result.conflict = false then
            let merged := String.join result.result
            ⟨some { doc with
                markdown := merged,
                meta := { meta with sha := sha, savedContent := merged } },
             [.fetchDoc sha, .notify .merged]⟩
          else
            ⟨some { doc with meta := { meta with sha := sha } },
             [.fetchDoc sha, .notify (.conflictMsg theirs base)]⟩

/-! ## Webhook handler (server/src/webhook.ts, part_000) -/

/-- One commit of a push payload (`committer?.username`, `added`,
`modified`, `removed`). -/
structure PushCommit where
  committer : Option String
  added : List String
  modified : List String
  removed : List String
deriving DecidableEq

/-- A push payload (`ref`, `repository.full_name`, `commits`). -/
structure PushPayload where
  ref : String
  repositoryFullName : String
  commits : List PushCommit
deriving DecidableEq

/-- JavaScript `String.prototype.replace` with a string pattern: replace
the first occurrence only. -/
def jsReplaceFirst (s pat replacement : String) : String :=
  match jsIndexOf s.toList pat.toList 0 with
  | none => s
  | some i =>
    ⟨s.toList.take i ++ replacement.toList ++ s.toList.drop (i + pat.toList.length)⟩

/-- Operation `Set<string>.add` on an insertion-ordered list model. -/
def addUnique (l : List String) (x : String) : List String :=
  if x ∈ l then l else l ++ [x]

/-- The room name `${owner}/${repo}/${branch}/${file}` built by
`handlePushEvent` from a payload.  `full_name.split("/")` is modelled by
splitting the character list on `'/'`; destructuring `[owner, repo]` of a
too-short array yields `undefined`, modelled as `""`. -/
def roomNameFor (payload : PushPayload) (file : String) : String :=
  let branch := jsReplaceFirst payload.ref "refs/heads/" ""
  let parts := (payload.repositoryFullName.toList.splitOn '/').map (fun l => String.mk l)
  let owner := parts.headD ""
  let repo := (parts.drop 1).headD ""
  owner ++ "/" ++ repo ++ "/" ++ branch ++ "/" ++ file

/-- The set of files changed by the push, skipping commits made by the sync
server itself (webhook.ts lines 579-590). -/
def changedFilesOf (commits : List PushCommit) : List String :=
  commits.foldl
    (fun acc commit =>
      let committer := commit.committer.getD ""
      if committer = "graft-sync" ∨ committer = "github-actions[bot]" then acc
      else (commit.added ++ commit.modified).foldl addUnique acc)
    []

/-- Function `handlePushEvent` (webhook.ts lines 571-604): returns the list of room
names for which `rooms.handleExternalChange` is triggered. -/
def handlePushEvent (payload : PushPayload) (rooms : List String) : List String :=
  let changedFiles := changedFilesOf payload.commits
  if changedFiles.isEmpty then []
  else
    changedFiles.filterMap (fun file =>
      let roomName := roomNameFor payload file
      if roomName ∈ rooms then some roomName else none)

/-- An incoming webhook request; `payload` models the result of
`JSON.parse(body)` (`none` = the body does not parse, which makes the
handler answer 500). -/
structure WebhookReq where
  body : String
  signature256 : Option String
  event : String
  payload : Option PushPayload

/-- Status code plus the rooms for which an external-change merge was
triggered. -/
structure WebhookOut where
  status : Nat
  triggered : List String
deriving DecidableEq

/-- Function `verifySignature` (webhook.ts lines 617-633), parametrised by the
HMAC-SHA256 hex function.  `timingSafeEqual` on equal-length buffers is
equality; on different lengths it throws and the catch returns `false`, so
the whole is string equality. -/
def verifySignature (hmacHex : String → String → String)
    (secret body signature : String) : Bool :=
  let expected := "sha256=" ++ hmacHex secret body
  decide (signature = expected)

/-- The handler made by `createWebhookHandler` (webhook.ts lines 516-551):
verify the signature when a secret is configured (missing or falsy header,
or mismatch, ⇒ 401 with no processing); ignore non-`push` events with 200;
otherwise parse the body and run `handlePushEvent`. -/
def webhookHandler (hmacHex : String → String → String) (secret : String)
    (rooms : List String) (req : WebhookReq) : WebhookOut :=
  if secret ≠ "" ∧
      (req.signature256.getD "" = "" ∨
        verifySignature hmacHex secret req.body (req.signature256.getD "") = false) then
    ⟨401, []⟩
  else if req.event ≠ "push" then
    ⟨200, []⟩
  else
    match req.payload with
    | none => ⟨500, []⟩
    | some payload => ⟨200, handlePushEvent payload rooms⟩

/-! ## WebSocket close handler (server/src/sync.ts, part_001 lines 200-220) -/

/-- Awareness is a map from client id to that client's ephemeral state
(modelled as an association list), connections as a list of socket ids. -/
structure ConnState where
  conns : List Nat
  awareness : List (Nat × String)
deriving DecidableEq

/-- The `ws.on("close")` handler of `setupWSConnection`: remove the socket
from the connection set, compute the peer client ids (a value the source
never uses), then call `removeAwarenessStates(awareness, [doc.clientID])` —
removing the *server doc's own* client id, not the disconnected peer's. -/
def closeHandler (cs : ConnState) (docClientID : Nat) (ws : Nat) : ConnState :=
  let conns := cs.conns.filter (fun c => decide (c ≠ ws))
  let _clientIds := (cs.awareness.map Prod.fst).filter (fun cid => decide (cid ≠ docClientID))
  { conns := conns
    awareness := cs.awareness.filter (fun p => decide (p.1 ≠ docClientID)) }

/-! ### Persistence-layer lemmas -/

/-- Method `saveComments` touches only the `commentsSha` field of the save state. -/
lemma saveComments_state_eq (state : SaveState) (doc : Doc) (env : CommentsEnv) :
    (saveComments state doc env).state =
      { state with commentsSha := (saveComments state doc env).state.commentsSha } := by
  unfold saveComments
  repeat' split
  all_goals rfl

lemma saveComments_fileSha (state : SaveState) (doc : Doc) (env : CommentsEnv) :
    (saveComments state doc env).state.fileSha = state.fileSha := by
  rw [saveComments_state_eq]

/-- Unfolding equation of `saveDocument` at a present state. -/
lemma saveDocument_some (state : SaveState) (doc : Doc) (env : SaveEnv) :
    saveDocument (some state) doc env =
      if state.saving then ⟨some state, doc, [], none⟩
      else
        let r := saveDocumentBody { state with saving := true } doc env
        ⟨some { r.state with saving := false }, r.doc, r.trace, r.err⟩ := rfl

/-- The body of `saveDocument` does nothing when the live content equals
the baseline (this covers both early returns of the body). -/
lemma saveDocumentBody_noop {state : SaveState} {doc : Doc} {env : SaveEnv}
    (h : doc.markdown = state.savedContent) :
    saveDocumentBody state doc env = ⟨state, doc, [], none⟩ := by
  simp only [saveDocumentBody]
  by_cases hm : doc.meta.owner = "" ∨ doc.meta.repo = "" ∨ doc.meta.branch = ""
      ∨ doc.meta.path = ""
  · rw [if_pos hm]
  · rw [if_neg hm, if_pos h]

/-- Method `saveDocument` is a complete no-op when the live content equals the
baseline: no external call at all and the state, doc and meta unchanged. -/
lemma saveDocument_noop_aux {state : SaveState} {doc : Doc} {env : SaveEnv}
    (h : doc.markdown = state.savedContent) :
    saveDocument (some state) doc env = ⟨some state, doc, [], none⟩ := by
  rw [saveDocument_some]
  by_cases hs : state.saving = true
  · rw [if_pos hs]
  · rw [if_neg hs]
    have hb : saveDocumentBody { state with saving := true } doc env
        = ⟨{ state with saving := true }, doc, [], none⟩ := saveDocumentBody_noop h
    simp only [hb]
    have : ({ state with saving := false } : SaveState) = state := by
      cases state
      simp only [Bool.not_eq_true] at hs
      simp [hs]
    rw [this]

/-! ### C3: conflicting merge on the save path -/

/-- C3 (amended): when `saveDocument`'s optimistic commit is rejected and
the three-way merge (base = saved baseline, ours = live content, theirs =
freshly fetched remote content) reports a conflict, `handleConflict` leaves
the live document and the saved baseline untouched and only advances the
in-memory revision token (`state.fileSha`) to the freshly fetched sha; it
sends **no** notification to the session's peers (its whole trace is the
single fetch) — the conflict-notification contract cited by the claim
exists only on the external-change path (`handleExternalChange`). -/
theorem handleConflict_conflict_frame (state : SaveState) (doc : Doc) (env : ConflictEnv)
    (theirs sha : String)
    (hf : env.fetch = .file theirs sha)
    (hc : (env.mergeFn doc.markdown state.savedContent theirs).conflict = true) :
    handleConflict state doc env =
      ⟨{ state with fileSha := sha }, doc, [.fetchDoc sha], none⟩ := by
  simp only [handleConflict, hf]
  rw [if_neg (by rw [hc]; simp)]

/-- C3 counterexample to the claim as stated: a concrete conflicting-merge
run of `handleConflict` whose trace is just the fetch — no
`external-change-conflict` notification carrying `theirs` and `base` is
surfaced from the save path. -/
theorem handleConflict_no_notification_cex :
    handleConflict ⟨"sha1", none, "base", false, true⟩
      ⟨⟨"sha1", "base", "o", "r", "main", "d.md", none⟩, "ours", []⟩
      ⟨.file "theirs" "sha2", (fun _ _ _ => ⟨true, []⟩), .okSha none⟩
      = ⟨⟨"sha2", none, "base", false, true⟩,
         ⟨⟨"sha1", "base", "o", "r", "main", "d.md", none⟩, "ours", []⟩,
         [.fetchDoc "sha2"], none⟩ ∧
    Ev.notify (.conflictMsg "theirs" "base") ∉
      (handleConflict ⟨"sha1", none, "base", false, true⟩
        ⟨⟨"sha1", "base", "o", "r", "main", "d.md", none⟩, "ours", []⟩
        ⟨.file "theirs" "sha2", (fun _ _ _ => ⟨true, []⟩), .okSha none⟩).trace := by
  exact ⟨by decide, by decide⟩

/-- C3 witness: `handleConflict_conflict_frame` at a concrete input. -/
theorem handleConflict_conflict_frame_witness :
    (ConflictEnv.fetch ⟨.file "remote" "newsha", (fun _ _ _ => ⟨true, ["k"]⟩), .okSha (some "z")⟩
        = .file "remote" "newsha") ∧
    ((fun _ _ _ => (⟨true, ["k"]⟩ : MergeRes)) "live" "base0" "remote").conflict = true ∧
    handleConflict ⟨"oldsha", some "cs", "base0", true, false⟩
      ⟨⟨"oldsha", "base0", "own", "rep", "br", "p.md", some 5⟩, "live", ["c"]⟩
      ⟨.file "remote" "newsha", (fun _ _ _ => ⟨true, ["k"]⟩), .okSha (some "z")⟩
      = ⟨⟨"newsha", some "cs", "base0", true, false⟩,
         ⟨⟨"oldsha", "base0", "own", "rep", "br", "p.md", some 5⟩, "live", ["c"]⟩,
         [.fetchDoc "newsha"], none⟩ :=
  ⟨rfl, rfl,
    handleConflict_conflict_frame ⟨"oldsha", some "cs", "base0", true, false⟩
      ⟨⟨"oldsha", "base0", "own", "rep", "br", "p.md", some 5⟩, "live", ["c"]⟩
      ⟨.file "remote" "newsha", (fun _ _ _ => ⟨true, ["k"]⟩), .okSha (some "z")⟩
      "remote" "newsha" rfl rfl⟩

/-! ### C4: single save in flight per session -/

/-- C4: the in-flight guard of `saveDocument`: a call that finds the
`saving` flag set returns immediately, absorbing the trigger — no state
change, no external call; and whenever a run actually starts (flag clear),
the flag is clear again in the resulting state, on success and on failure
(the `finally`). -/
theorem saveDocument_single_flight (state : SaveState) (doc : Doc) (env : SaveEnv) :
    (state.saving = true →
      saveDocument (some state) doc env = ⟨some state, doc, [], none⟩) ∧
    (state.saving = false →
      ∃ s1, (saveDocument (some state) doc env).state = some s1 ∧ s1.saving = false) := by
  constructor
  · intro hs
    rw [saveDocument_some, if_pos hs]
  · intro hs
    rw [saveDocument_some, if_neg (by rw [hs]; simp)]
    exact ⟨_, rfl, rfl⟩

/-- C4 witness: both conjuncts of `saveDocument_single_flight` at concrete
inputs. -/
theorem saveDocument_single_flight_witness :
    saveDocument (some ⟨"s", none, "b", false, true⟩)
        ⟨⟨"s", "b", "o", "r", "br", "p", none⟩, "live", []⟩
        ⟨.okSha (some "x"), ⟨.fail, (fun _ _ _ => ⟨false, []⟩), .fail⟩,
         ⟨true, .fail, .fail, .fail, .fail⟩, 7⟩
      = ⟨some ⟨"s", none, "b", false, true⟩,
         ⟨⟨"s", "b", "o", "r", "br", "p", none⟩, "live", []⟩, [], none⟩ ∧
    ∃ s1, (saveDocument (some ⟨"s", none, "b", false, false⟩)
        ⟨⟨"s", "b", "o", "r", "br", "p", none⟩, "live", []⟩
        ⟨.okSha (some "x"), ⟨.fail, (fun _ _ _ => ⟨false, []⟩), .fail⟩,
         ⟨true, .fail, .fail, .fail, .fail⟩, 7⟩).state = some s1 ∧
      s1.saving = false :=
  ⟨(saveDocument_single_flight _ _ _).1 rfl,
   (saveDocument_single_flight _ _ _).2 rfl⟩

/-! ### C5: no-op suppression -/

/-- C5: if at the moment `saveDocument` runs the live content equals the
session's saved baseline, no commit call is made (the action trace is
empty) and the session state — baseline, revision token, `lastSaved`, and
the whole doc — is unchanged. -/
theorem saveDocument_noop (state : SaveState) (doc : Doc) (env : SaveEnv)
    (h : doc.markdown = state.savedContent) :
    saveDocument (some state) doc env = ⟨some state, doc, [], none⟩ :=
  saveDocument_noop_aux h

/-- C5 witness: `saveDocument_noop` at a concrete input. -/
theorem saveDocument_noop_witness :
    ("same" : String) = "same" ∧
    saveDocument (some ⟨"sha", some "cs", "same", true, false⟩)
        ⟨⟨"sha", "same", "o", "r", "br", "p", some 3⟩, "same", ["c1", "c2"]⟩
        ⟨.okSha (some "x"), ⟨.fail, (fun _ _ _ => ⟨false, []⟩), .fail⟩,
         ⟨true, .fail, .fail, .fail, .fail⟩, 7⟩
      = ⟨some ⟨"sha", some "cs", "same", true, false⟩,
         ⟨⟨"sha", "same", "o", "r", "br", "p", some 3⟩, "same", ["c1", "c2"]⟩, [], none⟩ :=
  ⟨rfl, saveDocument_noop _ _ _ rfl⟩

/-! ### C10: annotation-only changes are never committed -/

/-- C10: when the live content equals the baseline, `saveDocument` (also
when reached through `flushDocument`, as on last-peer disconnect and
shutdown) returns before the annotation-save step: no `putComments` action
occurs and the stored comments sha is unchanged, so annotation-only changes
are never committed to the annotation storage. -/
theorem annotationOnly_never_saved (state : SaveState) (doc : Doc) (env : SaveEnv)
    (h : doc.markdown = state.savedContent) :
    Ev.putComments ∉ (saveDocument (some state) doc env).trace ∧
    (saveDocument (some state) doc env).state = some state ∧
    Ev.putComments ∉ (flushDocument (some state) doc env).trace ∧
    ∃ s1, (flushDocument (some state) doc env).state = some s1 ∧
      s1.commentsSha = state.commentsSha := by
  have h1 := @saveDocument_noop_aux state doc env h
  have h2 : flushDocument (some state) doc env
      = ⟨some { state with timer := false }, doc, [], none⟩ := by
    unfold flushDocument
    exact saveDocument_noop_aux h
  rw [h1, h2]
  refine ⟨by simp, rfl, by simp, ⟨_, rfl, rfl⟩⟩

/-- C10 witness: `annotationOnly_never_saved` at a concrete input where the
annotation registry is non-empty (comments changed, content untouched). -/
theorem annotationOnly_never_saved_witness :
    Ev.putComments ∉ (saveDocument (some ⟨"sha", some "cs", "body", true, false⟩)
        ⟨⟨"sha", "body", "o", "r", "br", "p", some 3⟩, "body", ["newComment"]⟩
        ⟨.okSha (some "x"), ⟨.fail, (fun _ _ _ => ⟨false, []⟩), .fail⟩,
         ⟨true, .fail, .fail, .fail, .fail⟩, 7⟩).trace ∧
    (saveDocument (some ⟨"sha", some "cs", "body", true, false⟩)
        ⟨⟨"sha", "body", "o", "r", "br", "p", some 3⟩, "body", ["newComment"]⟩
        ⟨.okSha (some "x"), ⟨.fail, (fun _ _ _ => ⟨false, []⟩), .fail⟩,
         ⟨true, .fail, .fail, .fail, .fail⟩, 7⟩).state
      = some ⟨"sha", some "cs", "body", true, false⟩ ∧
    Ev.putComments ∉ (flushDocument (some ⟨"sha", some "cs", "body", true, false⟩)
        ⟨⟨"sha", "body", "o", "r", "br", "p", some 3⟩, "body", ["newComment"]⟩
        ⟨.okSha (some "x"), ⟨.fail, (fun _ _ _ => ⟨false, []⟩), .fail⟩,
         ⟨true, .fail, .fail, .fail, .fail⟩, 7⟩).trace ∧
    ∃ s1, (flushDocument (some ⟨"sha", some "cs", "body", true, false⟩)
        ⟨⟨"sha", "body", "o", "r", "br", "p", some 3⟩, "body", ["newComment"]⟩
        ⟨.okSha (some "x"), ⟨.fail, (fun _ _ _ => ⟨false, []⟩), .fail⟩,
         ⟨true, .fail, .fail, .fail, .fail⟩, 7⟩).state = some s1 ∧
      s1.commentsSha = some "cs" :=
  annotationOnly_never_saved _ _ _ rfl

/-! ### C6: where the revision token comes from -/

lemma handleConflict_fileSha_src (state : SaveState) (doc : Doc) (env : ConflictEnv) :
    (handleConflict state doc env).state.fileSha = state.fileSha
    ∨ Ev.putDoc (.okSha (some (handleConflict state doc env).state.fileSha))
        ∈ (handleConflict state doc env).trace
    ∨ Ev.fetchDoc (handleConflict state doc env).state.fileSha
        ∈ (handleConflict state doc env).trace := by
  unfold handleConflict
  cases env.fetch with
  | fail => left; rfl
  | notFile => left; rfl
  | file theirs sha =>
    dsimp only
    by_cases hc : (env.mergeFn doc.markdown state.savedContent theirs).conflict = false
    · rw [if_pos hc]
      cases hput : env.putMerged with
      | okSha shaOpt =>
        cases shaOpt with
        | none => left; rfl
        | some s => right; left; simp
      | conflict409 => left; rfl
      | fail => left; rfl
    · rw [if_neg hc]
      right; right; simp

lemma saveDocumentBody_fileSha_src (state : SaveState) (doc : Doc) (env : SaveEnv) :
    (saveDocumentBody state doc env).state.fileSha = state.fileSha
    ∨ Ev.putDoc (.okSha (some (saveDocumentBody state doc env).state.fileSha))
        ∈ (saveDocumentBody state doc env).trace
    ∨ Ev.fetchDoc (saveDocumentBody state doc env).state.fileSha
        ∈ (saveDocumentBody state doc env).trace := by
  simp only [saveDocumentBody]
  by_cases hm : doc.meta.owner = "" ∨ doc.meta.repo = "" ∨ doc.meta.branch = ""
      ∨ doc.meta.path = ""
  · rw [if_pos hm]; left; rfl
  · rw [if_neg hm]
    by_cases heq : doc.markdown = state.savedContent
    · rw [if_pos heq]; left; rfl
    · rw [if_neg heq]
      cases hput : env.putDoc with
      | okSha shaOpt =>
        dsimp only
        rw [saveComments_fileSha]
        cases shaOpt with
        | none => left; rfl
        | some s => right; left; simp
      | conflict409 =>
        dsimp only
        cases herr : (handleConflict state doc env.conflictEnv).err with
        | some e =>
          dsimp only
          have := handleConflict_fileSha_src state doc env.conflictEnv
          rcases this with h | h | h
          · left; exact h
          · right; left; exact List.mem_cons_of_mem _ h
          · right; right; exact List.mem_cons_of_mem _ h
        | none =>
          dsimp only
          rw [saveComments_fileSha]
          have := handleConflict_fileSha_src state doc env.conflictEnv
          rcases this with h | h | h
          · left; exact h
          · right; left
            exact List.mem_cons_of_mem _ (List.mem_append_left _ h)
          · right; right
            exact List.mem_cons_of_mem _ (List.mem_append_left _ h)
      | fail => left; rfl

lemma handleExternalChange_sha_src (doc : Doc) (env : ExtEnv) :
    ∀ d1, (handleExternalChange (some doc) env).doc = some d1 →
      d1.meta.sha = doc.meta.sha
      ∨ Ev.fetchDoc d1.meta.sha ∈ (handleExternalChange (some doc) env).trace := by
  intro d1 hd1
  simp only [handleExternalChange] at hd1 ⊢
  by_cases hm : doc.meta.owner = "" ∨ doc.meta.repo = "" ∨ doc.meta.branch = ""
      ∨ doc.meta.path = ""
  · rw [if_pos hm] at hd1 ⊢
    cases hd1
    left; rfl
  · rw [if_neg hm] at hd1 ⊢
    cases hf : env.fetch with
    | fail => rw [hf] at hd1; dsimp only at hd1; cases hd1; left; rfl
    | notFile => rw [hf] at hd1; dsimp only at hd1; cases hd1; left; rfl
    | file theirs sha =>
      rw [hf] at hd1
      dsimp only at hd1 ⊢
      by_cases hsame : theirs = doc.markdown
      · rw [if_pos hsame] at hd1 ⊢
        cases hd1
        right; simp
      · rw [if_neg hsame] at hd1 ⊢
        by_cases hc : (env.mergeFn doc.markdown doc.meta.savedContent theirs).conflict = false
        · rw [if_pos hc] at hd1 ⊢
          cases hd1
          right; simp
        · rw [if_neg hc] at hd1 ⊢
          cases hd1
          right; simp

/-- C6 (amended): across `saveDocument`, `handleConflict` and
`handleExternalChange`, the stored revision token (`state.fileSha`, resp.
the doc's `meta.sha`) changes only to a sha returned by a successful commit
**or** to a freshly fetched remote revision recorded during conflict /
external-change handling — the latter two paths (the very lines the claim
cites) deliberately adopt a fetched revision with no successful commit. -/
theorem revisionToken_sources (state : SaveState) (doc : Doc) (env : SaveEnv)
    (cenv : ConflictEnv) (eenv : ExtEnv) :
    (∀ s1, (saveDocument (some state) doc env).state = some s1 →
      s1.fileSha = state.fileSha
      ∨ Ev.putDoc (.okSha (some s1.fileSha)) ∈ (saveDocument (some state) doc env).trace
      ∨ Ev.fetchDoc s1.fileSha ∈ (saveDocument (some state) doc env).trace) ∧
    ((handleConflict state doc cenv).state.fileSha = state.fileSha
      ∨ Ev.putDoc (.okSha (some (handleConflict state doc cenv).state.fileSha))
          ∈ (handleConflict state doc cenv).trace
      ∨ Ev.fetchDoc (handleConflict state doc cenv).state.fileSha
          ∈ (handleConflict state doc cenv).trace) ∧
    (∀ d1, (handleExternalChange (some doc) eenv).doc = some d1 →
      d1.meta.sha = doc.meta.sha
      ∨ Ev.fetchDoc d1.meta.sha ∈ (handleExternalChange (some doc) eenv).trace) := by
  refine ⟨?_, handleConflict_fileSha_src state doc cenv,
    handleExternalChange_sha_src doc eenv⟩
  intro s1 hs1
  rw [saveDocument_some] at hs1 ⊢
  by_cases hs : state.saving = true
  · rw [if_pos hs] at hs1 ⊢
    cases hs1
    left; rfl
  · rw [if_neg hs] at hs1 ⊢
    simp only at hs1 ⊢
    cases hs1
    have := saveDocumentBody_fileSha_src { state with saving := true } doc env
    rcases this with h | h | h
    · left; exact h
    · right; left; exact h
    · right; right; exact h

/-- C6 counterexample to the claim as stated: a concrete conflicting-merge
run in which the revision token changes (`"sha1"` to `"sha9"`) although the
only external action in the whole run is a fetch — the adopted value comes
from `repos.getContent`, not from any successful commit by this session. -/
theorem revisionToken_cex :
    (handleConflict ⟨"sha1", none, "base", false, false⟩
        ⟨⟨"sha1", "base", "o", "r", "main", "f.md", none⟩, "mine", []⟩
        ⟨.file "their" "sha9", (fun _ _ _ => ⟨true, ["x"]⟩), .fail⟩).state.fileSha = "sha9" ∧
    ("sha9" : String) ≠ "sha1" ∧
    (handleConflict ⟨"sha1", none, "base", false, false⟩
        ⟨⟨"sha1", "base", "o", "r", "main", "f.md", none⟩, "mine", []⟩
        ⟨.file "their" "sha9", (fun _ _ _ => ⟨true, ["x"]⟩), .fail⟩).trace
      = [Ev.fetchDoc "sha9"] := by
  exact ⟨by decide, by decide, by decide⟩

/-- C6 witness: `revisionToken_sources` at a concrete input. -/
theorem revisionToken_sources_witness :
    ∃ s1, (saveDocument (some ⟨"sh", none, "old", false, false⟩)
        ⟨⟨"sh", "old", "o", "r", "br", "p", none⟩, "new", []⟩
        ⟨.okSha (some "sh2"), ⟨.fail, (fun _ _ _ => ⟨false, []⟩), .fail⟩,
         ⟨true, .fail, .fail, .fail, .fail⟩, 7⟩).state = some s1 ∧
      (s1.fileSha = "sh"
        ∨ Ev.putDoc (.okSha (some s1.fileSha))
            ∈ (saveDocument (some ⟨"sh", none, "old", false, false⟩)
                ⟨⟨"sh", "old", "o", "r", "br", "p", none⟩, "new", []⟩
                ⟨.okSha (some "sh2"), ⟨.fail, (fun _ _ _ => ⟨false, []⟩), .fail⟩,
                 ⟨true, .fail, .fail, .fail, .fail⟩, 7⟩).trace
        ∨ Ev.fetchDoc s1.fileSha
            ∈ (saveDocument (some ⟨"sh", none, "old", false, false⟩)
                ⟨⟨"sh", "old", "o", "r", "br", "p", none⟩, "new", []⟩
                ⟨.okSha (some "sh2"), ⟨.fail, (fun _ _ _ => ⟨false, []⟩), .fail⟩,
                 ⟨true, .fail, .fail, .fail, .fail⟩, 7⟩).trace) :=
  ⟨_, rfl,
    (revisionToken_sources ⟨"sh", none, "old", false, false⟩
      ⟨⟨"sh", "old", "o", "r", "br", "p", none⟩, "new", []⟩
      ⟨.okSha (some "sh2"), ⟨.fail, (fun _ _ _ => ⟨false, []⟩), .fail⟩,
       ⟨true, .fail, .fail, .fail, .fail⟩, 7⟩
      ⟨.fail, (fun _ _ _ => ⟨false, []⟩), .fail⟩
      ⟨.fail, (fun _ _ _ => ⟨false, []⟩)⟩).1 _ rfl⟩

/-! ### C7: self-feedback suppression in the webhook -/

lemma mem_foldl_addUnique :
    ∀ (l acc : List String) (x : String),
    x ∈ l.foldl addUnique acc ↔ x ∈ acc ∨ x ∈ l := by
  intro l
  induction l with
  | nil => intro acc x; simp
  | cons a l ih =>
    intro acc x
    rw [List.foldl_cons, ih]
    unfold addUnique
    by_cases hax : a ∈ acc
    · rw [if_pos hax]
      constructor
      · rintro (h | h)
        · exact Or.inl h
        · exact Or.inr (List.mem_cons_of_mem _ h)
      · rintro (h | h)
        · exact Or.inl h
        · rcases List.mem_cons.mp h with rfl | h2
          · exact Or.inl hax
          · exact Or.inr h2
    · rw [if_neg hax]
      constructor
      · rintro (h | h)
        · rcases List.mem_append.mp h with h1 | h1
          · exact Or.inl h1
          · rcases List.mem_singleton.mp h1 with rfl
            exact Or.inr (List.mem_cons_self _ _)
        · exact Or.inr (List.mem_cons_of_mem _ h)
      · rintro (h | h)
        · exact Or.inl (List.mem_append_left _ h)
        · rcases List.mem_cons.mp h with rfl | h2
          · exact Or.inl (List.mem_append_right _ (List.mem_singleton.mpr rfl))
          · exact Or.inr h2

lemma not_mem_changedFilesOf {commits : List PushCommit} {file : String}
    (h : ∀ c ∈ commits, (file ∈ c.added ∨ file ∈ c.modified) →
      c.committer.getD "" = "graft-sync") :
    file ∉ changedFilesOf commits := by
  unfold changedFilesOf
  have main : ∀ (cs : List PushCommit) (acc : List String),
      (∀ c ∈ cs, (file ∈ c.added ∨ file ∈ c.modified) →
        c.committer.getD "" = "graft-sync") →
      file ∉ acc →
      file ∉ cs.foldl
        (fun acc commit =>
          let committer := commit.committer.getD ""
          if committer = "graft-sync" ∨ committer = "github-actions[bot]" then acc
          else (commit.added ++ commit.modified).foldl addUnique acc)
        acc := by
    intro cs
    induction cs with
    | nil => intro acc _ hacc; simpa using hacc
    | cons c cs ih =>
      intro acc hcs hacc
      rw [List.foldl_cons]
      apply ih _ (fun d hd => hcs d (List.mem_cons_of_mem _ hd))
      dsimp only
      by_cases hskip : c.committer.getD "" = "graft-sync"
          ∨ c.committer.getD "" = "github-actions[bot]"
      · rw [if_pos hskip]; exact hacc
      · rw [if_neg hskip]
        rw [mem_foldl_addUnique]
        rintro (h1 | h2)
        · exact hacc h1
        · have htouch : file ∈ c.added ∨ file ∈ c.modified := List.mem_append.mp h2
          exact hskip (Or.inl (hcs c (List.mem_cons_self _ _) htouch))
  exact main commits [] h (by simp)

lemma roomNameFor_inj {payload : PushPayload} {f g : String}
    (h : roomNameFor payload f = roomNameFor payload g) : f = g := by
  simp only [roomNameFor] at h
  have hd := congrArg String.data h
  rw [String.data_append, String.data_append] at hd
  have := List.append_cancel_left hd
  cases f
  cases g
  congr 1

/-- C7: every commit whose committing identity is the persistence layer's
own service identity (`"graft-sync"`) is skipped by `handlePushEvent`: a
file changed only by such commits never triggers an external-change merge
— its room name is absent from the triggered list. -/
theorem pushEvent_skips_service_commits (payload : PushPayload) (rooms : List String)
    (file : String)
    (h : ∀ c ∈ payload.commits, (file ∈ c.added ∨ file ∈ c.modified) →
      c.committer.getD "" = "graft-sync") :
    roomNameFor payload file ∉ handlePushEvent payload rooms := by
  intro hmem
  unfold handlePushEvent at hmem
  by_cases he : (changedFilesOf payload.commits).isEmpty = true
  · rw [if_pos he] at hmem
    cases hmem
  · rw [if_neg he] at hmem
    obtain ⟨f2, hf2, hif⟩ := List.mem_filterMap.mp hmem
    dsimp only at hif
    by_cases hr : roomNameFor payload f2 ∈ rooms
    · rw [if_pos hr] at hif
      have heq := Option.some_inj.mp hif
      have hfeq : f2 = file := roomNameFor_inj heq
      subst hfeq
      exact not_mem_changedFilesOf h hf2
    · rw [if_neg hr] at hif
      cases hif

/-- C7 witness: `pushEvent_skips_service_commits` on a push whose only
commit touching the file was made by the sync service. -/
theorem pushEvent_skips_service_commits_witness :
    (∀ c ∈ ([⟨some "graft-sync", ["doc.md"], [], []⟩] : List PushCommit),
      ("doc.md" ∈ c.added ∨ "doc.md" ∈ c.modified) → c.committer.getD "" = "graft-sync") ∧
    roomNameFor ⟨"refs/heads/main", "o/r", [⟨some "graft-sync", ["doc.md"], [], []⟩]⟩ "doc.md"
      ∉ handlePushEvent ⟨"refs/heads/main", "o/r", [⟨some "graft-sync", ["doc.md"], [], []⟩]⟩
          ["o/r/main/doc.md"] :=
  ⟨by decide,
    pushEvent_skips_service_commits
      ⟨"refs/heads/main", "o/r", [⟨some "graft-sync", ["doc.md"], [], []⟩]⟩
      ["o/r/main/doc.md"] "doc.md" (by decide)⟩

/-! ### C8: webhook authentication -/

lemma sha256_tag_ne_empty (x : String) : "sha256=" ++ x ≠ "" := by
  intro h
  have := congrArg String.data h
  rw [String.data_append] at this
  simp at this

/-- C8 (amended to a configured, non-empty webhook secret): a request whose
signature header is missing, empty, or different from the keyed hash of the
raw body is rejected with status 401 and nothing is processed; a request
with a valid signature whose event kind is not `"push"` is accepted with
status 200 and ignored (no processing). -/
theorem webhook_auth (hmacHex : String → String → String) (secret : String)
    (rooms : List String) (req : WebhookReq) (hsecret : secret ≠ "") :
    (req.signature256.getD "" ≠ "sha256=" ++ hmacHex secret req.body →
      webhookHandler hmacHex secret rooms req = ⟨401, []⟩) ∧
    (req.signature256.getD "" = "sha256=" ++ hmacHex secret req.body →
      req.event ≠ "push" →
      webhookHandler hmacHex secret rooms req = ⟨200, []⟩) := by
  constructor
  · intro hsig
    unfold webhookHandler
    rw [if_pos ⟨hsecret, Or.inr (by simp [verifySignature, hsig])⟩]
  · intro hsig hev
    unfold webhookHandler
    rw [if_neg ?hcond]
    case hcond =>
      rintro ⟨-, hbad | hbad⟩
      · rw [hbad] at hsig
        exact sha256_tag_ne_empty _ hsig.symm
      · rw [verifySignature] at hbad
        simp only [hsig, decide_eq_true_eq] at hbad
        simp at hbad
    rw [if_pos hev]

/-- C8 counterexample to the claim as stated: with an empty (unconfigured)
webhook secret the handler skips verification entirely — a push request
whose signature does not match the keyed hash of the body is accepted with
200 and fully processed (it triggers an external-change merge). -/
theorem webhook_auth_cex :
    ("garbage" : String) ≠ "sha256=" ++ (fun _ _ => "h") "" "body" ∧
    webhookHandler (fun _ _ => "h") "" ["o/r/main/doc.md"]
      ⟨"body", some "garbage", "push",
        some ⟨"refs/heads/main", "o/r", [⟨some "mallory", ["doc.md"], [], []⟩]⟩⟩
      = ⟨200, ["o/r/main/doc.md"]⟩ :=
  ⟨by decide, by decide⟩

/-- C8 witness: both conjuncts of `webhook_auth` at concrete inputs. -/
theorem webhook_auth_witness :
    webhookHandler (fun _ _ => "h") "sec" [] ⟨"b", some "bad", "push", none⟩ = ⟨401, []⟩ ∧
    webhookHandler (fun _ _ => "h") "sec" [] ⟨"b", some "sha256=h", "ping", none⟩ = ⟨200, []⟩ :=
  ⟨(webhook_auth (fun _ _ => "h") "sec" [] ⟨"b", some "bad", "push", none⟩
      (by decide)).1 (by decide),
   (webhook_auth (fun _ _ => "h") "sec" [] ⟨"b", some "sha256=h", "ping", none⟩
      (by decide)).2 (by decide) (by decide)⟩

/-! ### C9: awareness removal on disconnect -/

/-- C9 evidence: with server doc client id 1 and a disconnecting peer whose
awareness entry is client id 2, the close handler removes the peer's socket
from the connection set but removes the awareness entry of the *doc's own*
client id (1), leaving the disconnected peer's entry (2) — and every other
peer's entry — in place.  The spec (and the handler's own comment and its
unused `clientIds` computation) call for removing exactly the peer's own
entry. -/
theorem closeHandler_leaves_peer_awareness :
    closeHandler ⟨[10, 11], [(1, "server"), (2, "alice"), (3, "bob")]⟩ 1 10
      = ⟨[11], [(2, "alice"), (3, "bob")]⟩ := by
  decide

end Graft
